import Mathlib

/-!
Shallow embedding of the interest-profile model and scoring engine of the
`thedittmer/rss-reader` Go repository.

Sources embedded here:
* `internal/models` (src/unnamed/part_001): constants `maxInterests`,
  `minWeight`, `decayFactor`; `UserProfile`; `UpdateInterests`;
  `extractKeywords`; `isCommonWord`.
* `main.go`: `calculateInterestScore`, the recommendation-building loop of
  `showRecommendations` (lines 424-443) and `sortRecommendations`.
* the alternate main (src/unnamed/part_003): its `showRecommendations`
  (lines 367-397), which additionally skips articles whose link is in
  `ReadArticles` and scores by summing weights of extracted keywords.

Modelling conventions:
* Go `float64` weights and scores are modelled as `ℚ` (exact arithmetic); the
  float literals 0.95 and 0.1 are the rationals 19/20 and 1/10.
* Go maps `map[string]float64` are association lists `List (String × ℚ)`
  (keys unique in any state produced by the code); `map[string]bool` sets are
  `List String` (the code only ever stores `true`).
* `math.Pow(decayFactor, periods)` is transcendental over ℚ, so
  `UpdateInterests` takes the computed decay multiplier as a parameter
  `decayMultiplier : ℚ`.  Go guarantees `Pow(x, 0) = 1` and `Pow(x, 1) = x`
  exactly, which covers the zero-elapsed and 24-hour-elapsed scenarios of the
  specification (multiplier `1` resp. `19/20`).
* `time.Time` values are modelled as rational timestamps (hours).
* Go `sort.Slice` is documented as NOT guaranteed to be stable and its
  algorithm is unspecified; it is embedded as a relation between input and
  output (`sortSliceByScore`): any permutation ordered by the comparator is a
  conforming result.  `sort.Float64s` sorts bare values, where every correct
  ascending sort produces the same list (`sortFloat64s_unique` below), so it
  is embedded as insertion sort.
* Go `strings.ToLower` is modelled character-wise with `Char.toLower` (exact
  on the ASCII range; characters without an ASCII upper-case form are left
  unchanged, as in Go for the inputs considered here).
* Loops that append to a slice are written as structural recursion producing
  the same list.
-/

/-- Go `unicode.IsSpace`: the White_Space code points
(the Latin-1 table plus the higher White_Space code points). -/
def goIsSpace (c : Char) : Bool :=
  c == '\t' || c == '\n' || c == (Char.ofNat 0x0B) || c == (Char.ofNat 0x0C) ||
  c == '\r' || c == ' ' || c == (Char.ofNat 0x85) || c == (Char.ofNat 0xA0) ||
  c == (Char.ofNat 0x1680) ||
  (0x2000 ≤ c.toNat && c.toNat ≤ 0x200A) ||
  c == (Char.ofNat 0x2028) || c == (Char.ofNat 0x2029) ||
  c == (Char.ofNat 0x202F) || c == (Char.ofNat 0x205F) ||
  c == (Char.ofNat 0x3000)

/-- Go `strings.ToLower` (ASCII-exact model, see header). -/
def goToLower (s : String) : String := (s.data.map Char.toLower).asString

/-- Worker for `goFields`: walk the characters, accumulating the current
field in reverse; a white-space character closes the current field. -/
def goFieldsLoop : List Char → List Char → List String
  | [], acc => if acc.isEmpty then [] else [acc.reverse.asString]
  | c :: cs, acc =>
      if goIsSpace c then
        if acc.isEmpty then goFieldsLoop cs []
        else acc.reverse.asString :: goFieldsLoop cs []
      else goFieldsLoop cs (c :: acc)

/-- Go `strings.Fields`: the non-empty substrings between runs of white
space. -/
def goFields (s : String) : List String := goFieldsLoop s.data []

/-- `isCommonWord` from `internal/models` (src/unnamed/part_001 lines
111-118): membership in the fixed stop-word map literal. -/
def isCommonWord (word : String) : Bool :=
  ["the", "and", "for", "that", "with",
   "this", "from", "your", "have", "are"].contains word

/-- `extractKeywords` from `internal/models` (src/unnamed/part_001 lines
98-109): lower-case, split into fields, keep the words with `len(word) > 3`
(Go `len` is the UTF-8 byte length) that are not common words, in order. -/
def extractKeywordsLoop : List String → List String
  | [] => []
  | w :: ws =>
      if 3 < w.utf8ByteSize ∧ ¬ isCommonWord w then w :: extractKeywordsLoop ws
      else extractKeywordsLoop ws

/-- `extractKeywords` proper: `strings.Fields(strings.ToLower(text))` fed to
the filtering loop. -/
def extractKeywords (text : String) : List String :=
  extractKeywordsLoop (goFields (goToLower text))

/-- Constant `maxInterests = 100` from src/unnamed/part_001 line 38. -/
def maxInterests : Nat := 100

/-- Constant `minWeight = 0.1` from src/unnamed/part_001 line 39. -/
def minWeight : ℚ := 1/10

/-- Constant `decayFactor = 0.95` from src/unnamed/part_001 line 40. -/
def decayFactor : ℚ := 19/20

/-- `models.UserProfile` (src/unnamed/part_001 lines 43-47). -/
structure UserProfile where
  interests : List (String × ℚ)
  readArticles : List String
  lastUpdated : ℚ
deriving DecidableEq

/-- One step of the weight-update loop `p.Interests[word] =
p.Interests[word] + 1.0` (src/unnamed/part_001 lines 63-65): increment the
entry for `w`, treating an absent key as 0. -/
def bumpWord : List (String × ℚ) → String → List (String × ℚ)
  | [], w => [(w, 1)]
  | e :: rest, w =>
      if e.1 = w then (e.1, e.2 + 1) :: rest else e :: bumpWord rest w

/-- The whole weight-update loop over the extracted words. -/
def bumpWords (interests : List (String × ℚ)) (words : List String) :
    List (String × ℚ) :=
  words.foldl bumpWord interests

/-- The decay loop (src/unnamed/part_001 lines 72-77): every weight is
multiplied by the decay multiplier and the entries that fall strictly below
`minWeight` are deleted. -/
def decayStep (m : ℚ) (interests : List (String × ℚ)) :
    List (String × ℚ) :=
  (interests.map (fun e => (e.1, e.2 * m))).filter
    (fun e => !decide (e.2 < minWeight))

/-- The weights of the interests, sorted ascending: `sort.Float64s` on the
collected values (src/unnamed/part_001 lines 81-85).  See
`sortFloat64s_unique` for why insertion sort is an exact model. -/
def sortedWeights (interests : List (String × ℚ)) : List ℚ :=
  (interests.map Prod.snd).insertionSort (· ≤ ·)

/-- The trim threshold `weights[len(weights)-maxInterests]`
(src/unnamed/part_001 line 86); the index is in bounds whenever the length
exceeds `maxInterests`. -/
def trimThreshold (interests : List (String × ℚ)) : ℚ :=
  (sortedWeights interests).getD (interests.length - maxInterests) 0

/-- The trim step (src/unnamed/part_001 lines 79-93): when more than
`maxInterests` entries remain, delete every entry whose weight is strictly
below the threshold. -/
def trimStep (interests : List (String × ℚ)) : List (String × ℚ) :=
  if maxInterests < interests.length then
    interests.filter (fun e => !decide (e.2 < trimThreshold interests))
  else interests

/-- Composition of the three mutation phases of `UpdateInterests` on the
interests map: bump the extracted words, decay, trim. -/
def updateInterestsMap (interests : List (String × ℚ)) (text : String)
    (decayMultiplier : ℚ) : List (String × ℚ) :=
  trimStep (decayStep decayMultiplier (bumpWords interests (extractKeywords text)))

/-- `(*UserProfile).UpdateInterests` (src/unnamed/part_001 lines 58-96).
`decayMultiplier` stands for `math.Pow(decayFactor,
time.Since(p.LastUpdated).Hours()/24)` and `now` for `time.Now()` (see the
header). -/
def UpdateInterests (p : UserProfile) (text : String)
    (decayMultiplier : ℚ) (now : ℚ) : UserProfile :=
  { interests := updateInterestsMap p.interests text decayMultiplier
    readArticles := p.readArticles
    lastUpdated := now }

/-- `models.FeedItem` (src/unnamed/part_001 lines 125-131); the
`time.Time` field `Published` is modelled as a rational timestamp. -/
structure FeedItem where
  title : String
  description : String
  link : String
  published : ℚ
  feedSource : String
deriving DecidableEq

/-- `models.ArticleScore` (src/unnamed/part_001 lines 139-142). -/
structure ArticleScore where
  item : FeedItem
  score : ℚ
deriving DecidableEq

/-- Whether `needle` is a prefix of `hay` (character-wise). -/
def charsStartsWith : List Char → List Char → Bool
  | [], _ => true
  | _ :: _, [] => false
  | a :: as, b :: bs => a == b && charsStartsWith as bs

/-- Whether `needle` occurs contiguously inside `hay`.  Go
`strings.Contains` compares UTF-8 bytes; since UTF-8 is self-synchronizing,
a byte-level occurrence inside valid UTF-8 is exactly a character-level
occurrence. -/
def charsContains (needle : List Char) : List Char → Bool
  | [] => charsStartsWith needle []
  | c :: cs => charsStartsWith needle (c :: cs) || charsContains needle cs

/-- Go `strings.Contains s sub`. -/
def goContains (s sub : String) : Bool := charsContains sub.data s.data

/-- `(*App).calculateInterestScore` (src/main.go lines 671-682): sum the
weights of the interests whose lower-cased keyword occurs as a substring of
the lower-cased `Title + " " + Description`.  The Go `for ... range` over
the map is a fold over the entries (addition is commutative, so the
unspecified map order is irrelevant; see `calculateInterestScore_spec`). -/
def calculateInterestScore (interests : List (String × ℚ))
    (item : FeedItem) : ℚ :=
  let text := goToLower (item.title ++ " " ++ item.description)
  interests.foldl
    (fun score e => if goContains text (goToLower e.1) then score + e.2 else score) 0

/-- The recommendation-building loop of `(*App).showRecommendations`
(src/main.go lines 424-443): score every fetched item and append the ones
with positive score, in input order.  This variant reads no
`ReadArticles` information. -/
def showRecommendationsScoredMain (interests : List (String × ℚ)) :
    List FeedItem → List ArticleScore
  | [] => []
  | it :: rest =>
      let score := calculateInterestScore interests it
      if 0 < score then
        ⟨it, score⟩ :: showRecommendationsScoredMain interests rest
      else showRecommendationsScoredMain interests rest

/-- The per-item score of the alternate main's `showRecommendations`
(src/unnamed/part_003 lines 379-387): extract the keywords of
`Title + " " + Description` and sum the weights of those present in the
interests map (repeated keywords counted repeatedly). -/
def p003Score (interests : List (String × ℚ)) (item : FeedItem) : ℚ :=
  (extractKeywords (item.title ++ " " ++ item.description)).foldl
    (fun score w =>
      match interests.lookup w with
      | some weight => score + weight
      | none => score) 0

/-- The scoring loop of the alternate main's `showRecommendations`
(src/unnamed/part_003 lines 372-392): skip the items whose link is in
`ReadArticles`, then keep the ones with positive score, in input order. -/
def showRecommendationsScored (p : UserProfile) :
    List FeedItem → List ArticleScore
  | [] => []
  | it :: rest =>
      if p.readArticles.contains it.link then showRecommendationsScored p rest
      else
        let score := p003Score p.interests it
        if 0 < score then ⟨it, score⟩ :: showRecommendationsScored p rest
        else showRecommendationsScored p rest

/-- Go `sort.Slice(recommendations, func(i, j int) bool { return
recommendations[i].Score > recommendations[j].Score })`, as called in both
`showRecommendations` variants (src/main.go line 440, src/unnamed/part_003
lines 394-397) and in `sortRecommendations` with `SortByScore`
(src/main.go lines 630-645).  `sort.Slice` promises only a reordering that
is sorted with respect to the comparator — it is documented as not
guaranteed to be stable — so it is embedded as the relation between the
input slice and any conforming output. -/
def sortSliceByScore (input output : List ArticleScore) : Prop :=
  output.Perm input ∧ output.Pairwise (fun a b => ¬ a.score < b.score)

instance (input output : List ArticleScore) :
    Decidable (sortSliceByScore input output) := by
  unfold sortSliceByScore; infer_instance


/-- A profile state with 101 interests of equal weight 1 (keys `"a"`,
`"aa"`, ..., 101 distinct keys). -/
def equalWeights101 : List (String × ℚ) :=
  (List.range 101).map (fun i => ((List.replicate (i + 1) 'a').asString, (1 : ℚ)))

/-- A profile state with 100 interests of weight 1 and one keyword `"x"` at
weight exactly `minWeight = 0.1`. -/
def hundredAndBoundary : List (String × ℚ) :=
  ((List.range 100).map (fun i => ((List.replicate (i + 1) 'a').asString, (1 : ℚ))))
    ++ [("x", 1/10)]

/-- Keyword extraction as the specification words it: tokens whose length is
strictly greater than 3 CHARACTERS (not UTF-8 bytes) and that are not common
words. -/
def specExtractKeywordsChars (text : String) : List String :=
  (goFields (goToLower text)).filter
    (fun w => decide (3 < w.data.length) && !isCommonWord w)

/-- A profile used for the read-filter analysis: one interest `"golang"`,
one read link `"L1"`. -/
def readFilterProfile : UserProfile :=
  { interests := [("golang", 1)], readArticles := ["L1"], lastUpdated := 0 }

/-- An already-read feed item that scores positively against
`readFilterProfile`. -/
def readItem : FeedItem :=
  { title := "Golang news", description := "", link := "L1",
    published := 0, feedSource := "s" }

/-- Two feed items with equal score against the interest `"data"`. -/
def tieItemA : FeedItem :=
  { title := "data aa", description := "", link := "LA",
    published := 0, feedSource := "s" }

/-- Second of the two equal-score feed items. -/
def tieItemB : FeedItem :=
  { title := "data bb", description := "", link := "LB",
    published := 0, feedSource := "s" }

/-- A feed item whose title contains the keyword `"data"` only as a proper
substring of the longer token `"database"`. -/
def dbItem : FeedItem :=
  { title := "database", description := "", link := "LD",
    published := 0, feedSource := "s" }

/-- Every correct model of `sort.Float64s` agrees with `sortedWeights`: an
ascending-sorted permutation of the collected weights is unique as a list. -/
theorem sortFloat64s_unique (interests : List (String × ℚ)) (l : List ℚ)
    (hp : l.Perm (interests.map Prod.snd)) (hs : l.Sorted (· ≤ ·)) :
    l = sortedWeights interests :=
  List.eq_of_perm_of_sorted
    (hp.trans (List.perm_insertionSort (· ≤ ·) _).symm) hs
    (List.sorted_insertionSort (· ≤ ·) _)

/-- The keyword-filtering loop is the filter by byte length and common-word
status. -/
theorem extractKeywordsLoop_eq_filter (ws : List String) :
    extractKeywordsLoop ws =
      ws.filter (fun w => decide (3 < w.utf8ByteSize) && !isCommonWord w) := by
  induction ws with
  | nil => rfl
  | cons w ws ih =>
      by_cases h : 3 < w.utf8ByteSize ∧ ¬ isCommonWord w
      · have hb : (decide (3 < w.utf8ByteSize) && !isCommonWord w) = true := by
          simp [h.1, h.2]
        rw [extractKeywordsLoop, if_pos h, ih, List.filter_cons, hb]
        simp
      · have hb : (decide (3 < w.utf8ByteSize) && !isCommonWord w) = false := by
          rcases not_and_or.mp h with h1 | h1
          · simp [h1]
          · simp only [Bool.not_eq_true, not_not] at h1
            simp [h1]
        rw [extractKeywordsLoop, if_neg h, ih, List.filter_cons, hb]
        simp

/-- Membership in the decayed map: the survivors are exactly the old entries
with their weight multiplied by `m`, when that product does not drop below
`minWeight`. -/
theorem mem_decayStep {m : ℚ} {l : List (String × ℚ)} {k : String} {w : ℚ} :
    (k, w) ∈ decayStep m l ↔
      ∃ w0, (k, w0) ∈ l ∧ w = w0 * m ∧ ¬ w0 * m < minWeight := by
  unfold decayStep
  simp only [List.mem_filter, List.mem_map, Bool.not_eq_eq_eq_not, Bool.not_true,
    decide_eq_false_iff_not, Prod.mk.injEq, Prod.exists]
  constructor
  · rintro ⟨⟨a, b, hab, hk, hw⟩, hmin⟩
    exact ⟨b, by simpa [hk] using hab, hw.symm, by simpa [← hw] using hmin⟩
  · rintro ⟨w0, h0, hw, hmin⟩
    exact ⟨⟨k, w0, h0, rfl, hw.symm⟩, by simpa [hw] using hmin⟩

/-- Every weight surviving the decay loop is at least `minWeight`. -/
theorem minWeight_le_of_mem_decayStep {m : ℚ} {l : List (String × ℚ)}
    {k : String} {w : ℚ} (h : (k, w) ∈ decayStep m l) : minWeight ≤ w := by
  rcases mem_decayStep.mp h with ⟨w0, _, hw, hmin⟩
  exact hw ▸ le_of_not_lt (hw ▸ hmin)

/-- The trim step only removes entries. -/
theorem trimStep_subset {l : List (String × ℚ)} {e : String × ℚ}
    (h : e ∈ trimStep l) : e ∈ l := by
  unfold trimStep at h
  split at h
  · exact List.mem_of_mem_filter h
  · exact h

/-- The trim step is the identity when the map is small enough. -/
theorem trimStep_of_le {l : List (String × ℚ)}
    (h : l.length ≤ maxInterests) : trimStep l = l := by
  unfold trimStep
  exact if_neg (not_lt.mpr h)

/-- Membership in the trimmed map when the trim fires. -/
theorem mem_trimStep_of_gt {l : List (String × ℚ)}
    (h : maxInterests < l.length) (e : String × ℚ) :
    e ∈ trimStep l ↔ e ∈ l ∧ ¬ e.2 < trimThreshold l := by
  unfold trimStep
  rw [if_pos h]
  simp [List.mem_filter]

/-- In an ascending-sorted duplicate-free list, at most `n - i` elements are
not strictly below the element at index `i`. -/
theorem countP_ge_getD_le_of_sorted {ws : List ℚ} {i : ℕ}
    (hi : i < ws.length) (hs : ws.Sorted (· ≤ ·)) (hn : ws.Nodup) :
    ws.countP (fun w => !decide (w < ws.getD i 0)) ≤ ws.length - i := by
  have hstrict : ws.Pairwise (· < ·) := by
    have := List.Pairwise.and hs hn
    exact this.imp (fun h => lt_of_le_of_ne h.1 h.2)
  have hget : ws.getD i 0 = ws[i] := List.getD_eq_getElem ws 0 hi
  have hsplit : ws = ws.take i ++ ws.drop i := (List.take_append_drop i ws).symm
  have hmem_drop : ws[i] ∈ ws.drop i := by
    rw [List.drop_eq_getElem_cons hi]
    exact List.mem_cons_self _ _
  have htake : ∀ a ∈ ws.take i, a < ws[i] := by
    intro a ha
    have hpw := hsplit ▸ hstrict
    exact (List.pairwise_append.mp hpw).2.2 a ha _ hmem_drop
  calc ws.countP (fun w => !decide (w < ws.getD i 0))
      = (ws.take i).countP (fun w => !decide (w < ws.getD i 0)) +
        (ws.drop i).countP (fun w => !decide (w < ws.getD i 0)) := by
        rw [← List.countP_append, ← hsplit]
    _ = 0 + (ws.drop i).countP (fun w => !decide (w < ws.getD i 0)) := by
        congr 1
        rw [List.countP_eq_zero]
        intro a ha
        simp only [Bool.not_eq_true', decide_eq_false_iff_not, not_not, hget]
        simpa using htake a ha
    _ ≤ (ws.drop i).length := by
        rw [Nat.zero_add]
        exact List.countP_le_length _
    _ = ws.length - i := List.length_drop i ws

/-- In an association list with duplicate-free keys, a key determines its
weight (Go map semantics). -/
theorem weight_eq_of_nodup_keys {l : List (String × ℚ)}
    (hk : (l.map Prod.fst).Nodup) {k : String} {w w2 : ℚ}
    (h1 : (k, w) ∈ l) (h2 : (k, w2) ∈ l) : w = w2 := by
  induction l with
  | nil => cases h1
  | cons e rest ih =>
      obtain ⟨hnot, hrest⟩ :
          (∀ x : ℚ, (e.1, x) ∉ rest) ∧ (rest.map Prod.fst).Nodup := by
        simpa using hk
      rcases List.mem_cons.mp h1 with he1 | he1 <;>
        rcases List.mem_cons.mp h2 with he2 | he2
      · exact (Prod.ext_iff.mp (he1.trans he2.symm)).2
      · have hke : e.1 = k := by rw [← he1]
        exact absurd (show (e.1, w2) ∈ rest by rw [hke]; exact he2) (hnot w2)
      · have hke : e.1 = k := by rw [← he2]
        exact absurd (show (e.1, w) ∈ rest by rw [hke]; exact he1) (hnot w)
      · exact ih hrest he1 he2

/-- With decay multiplier 1, the decay loop keeps a map whose weights all
satisfy the `minWeight` invariant unchanged. -/
theorem decayStep_one {l : List (String × ℚ)}
    (h : ∀ e ∈ l, minWeight ≤ e.2) : decayStep 1 l = l := by
  induction l with
  | nil => rfl
  | cons e rest ih =>
      have he : minWeight ≤ e.2 := h e (List.mem_cons_self e rest)
      have hcond : (!decide ((e.2 * 1 : ℚ) < minWeight)) = true := by
        simp [mul_one, not_lt.mpr he]
      unfold decayStep at ih ⊢
      simp only [List.map_cons, List.filter_cons, hcond, if_pos]
      rw [mul_one]
      exact congrArg (e :: ·) (ih (fun x hx => h x (List.mem_cons_of_mem e hx)))

/-- Folding a conditional accumulation is adding the sum of the selected
values. -/
theorem foldl_ite_add_eq_sum {α : Type} (P : α → Bool) (g : α → ℚ)
    (l : List α) (a : ℚ) :
    l.foldl (fun s e => if P e then s + g e else s) a =
      a + ((l.filter P).map g).sum := by
  induction l generalizing a with
  | nil => simp
  | cons e rest ih =>
      by_cases h : P e
      · simp only [List.foldl_cons, h, if_pos, List.filter_cons, List.map_cons]
        rw [ih, List.sum_cons]
        ring
      · have hb : P e = false := by simpa using h
        simp only [List.foldl_cons, hb, Bool.false_eq_true, if_false,
          List.filter_cons, hb]
        exact ih a

/-- The recommendation loop of `main.go` is the filter-map keeping the
positive-scoring items with their scores. -/
theorem showRecommendationsScoredMain_eq_filterMap
    (interests : List (String × ℚ)) (items : List FeedItem) :
    showRecommendationsScoredMain interests items =
      items.filterMap (fun it =>
        let s := calculateInterestScore interests it
        if 0 < s then some ⟨it, s⟩ else none) := by
  induction items with
  | nil => rfl
  | cons it rest ih =>
      have hstep : showRecommendationsScoredMain interests (it :: rest) =
          if 0 < calculateInterestScore interests it then
            ⟨it, calculateInterestScore interests it⟩ ::
              showRecommendationsScoredMain interests rest
          else showRecommendationsScoredMain interests rest := rfl
      by_cases h : 0 < calculateInterestScore interests it
      · rw [hstep, if_pos h, ih, List.filterMap_cons]
        simp [h]
      · rw [hstep, if_neg h, ih, List.filterMap_cons]
        simp [h]

/-- The recommendation loop of the alternate main is the filter-map keeping
the unread positive-scoring items with their scores. -/
theorem showRecommendationsScored_eq_filterMap
    (p : UserProfile) (items : List FeedItem) :
    showRecommendationsScored p items =
      items.filterMap (fun it =>
        if p.readArticles.contains it.link = false ∧
            0 < p003Score p.interests it then
          some ⟨it, p003Score p.interests it⟩
        else none) := by
  induction items with
  | nil => rfl
  | cons it rest ih =>
      have hstep : showRecommendationsScored p (it :: rest) =
          if p.readArticles.contains it.link then
            showRecommendationsScored p rest
          else if 0 < p003Score p.interests it then
            ⟨it, p003Score p.interests it⟩ :: showRecommendationsScored p rest
          else showRecommendationsScored p rest := rfl
      by_cases hr : p.readArticles.contains it.link
      · have hmem : it.link ∈ p.readArticles := by simpa using hr
        rw [hstep, if_pos hr, ih, List.filterMap_cons]
        simp [hmem]
      · have hnmem : it.link ∉ p.readArticles := by simpa using hr
        by_cases hs : 0 < p003Score p.interests it
        · rw [hstep, if_neg hr, if_pos hs, ih, List.filterMap_cons]
          simp [hnmem, hs]
        · rw [hstep, if_neg hr, if_neg hs, ih, List.filterMap_cons]
          simp [hs]

/-- Every entry of the `main.go` recommendation list scores positively. -/
theorem pos_score_of_mem_scoredMain {interests : List (String × ℚ)}
    {items : List FeedItem} {a : ArticleScore}
    (h : a ∈ showRecommendationsScoredMain interests items) : 0 < a.score := by
  rw [showRecommendationsScoredMain_eq_filterMap] at h
  rcases List.mem_filterMap.mp h with ⟨it, _, hit⟩
  simp only at hit
  split at hit
  · cases hit
    simpa using ‹0 < calculateInterestScore interests it›
  · cases hit

/-- C1 counterexample: a profile with 101 interests of equal weight.  The
trim threshold equals that common weight, the strict `<` removes nothing,
and all 101 entries survive the update, so `len(interests) ≤ 100` fails. -/
theorem updateInterests_card_counterexample :
    ¬ ((UpdateInterests ⟨equalWeights101, [], 0⟩ "" 1 0).interests.length ≤
        maxInterests) := by
  with_unfolding_all decide

/-- C1 (amended): after `UpdateInterests`, the interests map has at most
`maxInterests = 100` entries provided the post-decay weights are pairwise
distinct; with duplicated weights at the trim threshold the cap can be
exceeded (see the counterexample). -/
theorem updateInterests_card_le_of_distinct_weights
    (p : UserProfile) (text : String) (m now : ℚ)
    (h : ((decayStep m (bumpWords p.interests
        (extractKeywords text))).map Prod.snd).Nodup) :
    (UpdateInterests p text m now).interests.length ≤ maxInterests := by
  set l := decayStep m (bumpWords p.interests (extractKeywords text)) with hl
  show (trimStep l).length ≤ maxInterests
  by_cases hlen : maxInterests < l.length
  · rw [trimStep, if_pos hlen]
    have hws_len : (sortedWeights l).length = l.length := by
      rw [sortedWeights, List.length_insertionSort, List.length_map]
    have hm : maxInterests = 100 := rfl
    have hlen100 : 100 < l.length := hm ▸ hlen
    have hi : l.length - maxInterests < (sortedWeights l).length := by
      rw [hws_len, hm]; omega
    have hsorted : (sortedWeights l).Sorted (· ≤ ·) :=
      List.sorted_insertionSort _ _
    have hnd : (sortedWeights l).Nodup :=
      (List.perm_insertionSort _ _).nodup_iff.mpr h
    have hcount := countP_ge_getD_le_of_sorted hi hsorted hnd
    have h1 : (l.filter (fun e => !decide (e.2 < trimThreshold l))).length =
        (l.map Prod.snd).countP (fun w => !decide (w < trimThreshold l)) := by
      rw [List.countP_map]
      exact (List.countP_eq_length_filter _ _).symm
    have h2 : (l.map Prod.snd).countP (fun w => !decide (w < trimThreshold l)) =
        (sortedWeights l).countP (fun w => !decide (w < trimThreshold l)) :=
      ((List.perm_insertionSort _ _).countP_eq _).symm
    have h3 : (sortedWeights l).countP
          (fun w => !decide (w < trimThreshold l)) ≤
        (sortedWeights l).length - (l.length - maxInterests) := hcount
    rw [h1, h2]
    refine le_trans h3 ?_
    rw [hws_len, hm]
    omega
  · rw [trimStep, if_neg hlen]
    exact Nat.le_of_not_lt hlen

/-- C1 witness: the amended cap theorem applied to a small concrete profile
with distinct post-decay weights. -/
theorem updateInterests_card_le_witness :
    (UpdateInterests ⟨[("aaaa", 1), ("bbbb", 2)], [], 0⟩ "" 1
        0).interests.length ≤ maxInterests :=
  updateInterests_card_le_of_distinct_weights ⟨[("aaaa", 1), ("bbbb", 2)], [], 0⟩
    "" 1 0 (by with_unfolding_all decide)

/-- C5: when more than `maxInterests` keywords survive the decay phase, the
final map keeps exactly the entries whose weight is not strictly below the
threshold, the weight at rank `count - maxInterests` of the ascending-sorted
weight list. -/
theorem updateInterests_trim_spec
    (p : UserProfile) (text : String) (m now : ℚ)
    (hlen : maxInterests <
      (decayStep m (bumpWords p.interests (extractKeywords text))).length)
    (k : String) (w : ℚ) :
    (k, w) ∈ (UpdateInterests p text m now).interests ↔
      ((k, w) ∈ decayStep m (bumpWords p.interests (extractKeywords text)) ∧
        ¬ w < (sortedWeights (decayStep m (bumpWords p.interests
            (extractKeywords text)))).getD
          ((decayStep m (bumpWords p.interests
            (extractKeywords text))).length - maxInterests) 0) :=
  mem_trimStep_of_gt hlen (k, w)

/-- C5 witness: the trim characterization at the concrete 101-entry
profile. -/
theorem updateInterests_trim_spec_witness :
    (("a", (1 : ℚ)) ∈
        (UpdateInterests ⟨equalWeights101, [], 0⟩ "" 1 0).interests ↔
      (("a", (1 : ℚ)) ∈
          decayStep 1 (bumpWords equalWeights101 (extractKeywords "")) ∧
        ¬ (1 : ℚ) < (sortedWeights (decayStep 1 (bumpWords equalWeights101
            (extractKeywords "")))).getD
          ((decayStep 1 (bumpWords equalWeights101
            (extractKeywords ""))).length - maxInterests) 0)) :=
  updateInterests_trim_spec ⟨equalWeights101, [], 0⟩ "" 1 0
    (by with_unfolding_all decide) "a" 1

/-- C6 counterexample: with 100 heavier keywords present, the keyword `"x"`
has post-decay weight exactly `minWeight = 0.1` — the decay eviction keeps
it — yet the trim phase still removes it, so it is not retained after
`UpdateInterests`. -/
theorem updateInterests_minWeight_boundary_counterexample :
    ("x", minWeight) ∈
        decayStep 1 (bumpWords hundredAndBoundary (extractKeywords "")) ∧
      (UpdateInterests ⟨hundredAndBoundary, [], 0⟩ ""
          1 0).interests.lookup "x" = none := by
  with_unfolding_all decide

/-- C6 (amended): after `UpdateInterests` every remaining weight is at least
`minWeight`; an entry surviving decay (in particular one at exactly
`minWeight`) is retained whenever at most `maxInterests` keywords survive
decay; and a keyword whose decayed weight falls strictly below `minWeight`
is always removed (in a map with duplicate-free keys). -/
theorem updateInterests_minWeight_spec :
    (∀ (p : UserProfile) (text : String) (m now : ℚ) (k : String) (w : ℚ),
      (k, w) ∈ (UpdateInterests p text m now).interests → minWeight ≤ w) ∧
    (∀ (p : UserProfile) (text : String) (m now : ℚ) (k : String) (w : ℚ),
      (k, w) ∈ decayStep m (bumpWords p.interests (extractKeywords text)) →
      (decayStep m (bumpWords p.interests (extractKeywords text))).length ≤
        maxInterests →
      (k, w) ∈ (UpdateInterests p text m now).interests) ∧
    (∀ (p : UserProfile) (text : String) (m now : ℚ) (k : String) (w : ℚ),
      ((bumpWords p.interests (extractKeywords text)).map Prod.fst).Nodup →
      (k, w) ∈ bumpWords p.interests (extractKeywords text) →
      w * m < minWeight →
      ∀ w2, (k, w2) ∉ (UpdateInterests p text m now).interests) := by
  refine ⟨?_, ?_, ?_⟩
  · intro p text m now k w hmem
    exact minWeight_le_of_mem_decayStep (trimStep_subset hmem)
  · intro p text m now k w hmem hlen
    show (k, w) ∈ trimStep _
    rw [trimStep_of_le hlen]
    exact hmem
  · intro p text m now k w hnd hmem hlt w2 hmem2
    have h2 : (k, w2) ∈
        decayStep m (bumpWords p.interests (extractKeywords text)) :=
      trimStep_subset hmem2
    rcases mem_decayStep.mp h2 with ⟨w0, h0, -, hge⟩
    have hww : w0 = w := weight_eq_of_nodup_keys hnd h0 hmem
    exact hge (hww ▸ hlt)

/-- C6 witness: the lower-bound part at a concrete update. -/
theorem updateInterests_minWeight_spec_witness :
    minWeight ≤ (19 : ℚ)/20 :=
  updateInterests_minWeight_spec.1 ⟨[("keyw", 1)], [], 0⟩ "" (19/20) 0
    "keyw" (19/20) (by with_unfolding_all decide)

/-- C8: the decay loop multiplies every weight by the decay multiplier, and
in the 24-hour scenario (`math.Pow(0.95, 24/24) = 0.95` exactly in Go) the
single keyword of weight 1.0 ends at weight `0.95 = 19/20` and is not
evicted since `0.95 ≥ 0.1`. -/
theorem updateInterests_decay_spec :
    (∀ (m : ℚ) (l : List (String × ℚ)) (k : String) (w : ℚ),
      (k, w) ∈ decayStep m l ↔
        ∃ w0, (k, w0) ∈ l ∧ w = w0 * m ∧ ¬ w0 * m < minWeight) ∧
    (∀ (R : List String) (lu now : ℚ),
      (UpdateInterests ⟨[("k", 1)], R, lu⟩ "" decayFactor now).interests =
          [("k", decayFactor)] ∧
        ¬ decayFactor < minWeight) := by
  refine ⟨fun m l k w => mem_decayStep, fun R lu now => ⟨?_, ?_⟩⟩
  · show updateInterestsMap [("k", 1)] "" decayFactor = [("k", decayFactor)]
    with_unfolding_all decide
  · show ¬ decayFactor < minWeight
    with_unfolding_all decide

/-- C8 witness: the 24-hour decay scenario at concrete bookkeeping values. -/
theorem updateInterests_decay_spec_witness :
    (UpdateInterests ⟨[("k", 1)], ["r"], 5⟩ "" decayFactor 7).interests =
        [("k", decayFactor)] ∧
      ¬ decayFactor < minWeight :=
  updateInterests_decay_spec.2 ["r"] 5 7

/-- C9 counterexample: with a weight below `minWeight` in the map, an empty
update at zero elapsed time (multiplier 1) changes the stored weight of
`"keyw"` (the entry is deleted), so the update is not the identity on every
profile. -/
theorem updateInterests_idempotent_counterexample :
    (UpdateInterests ⟨[("keyw", (1 : ℚ)/20)], [], 0⟩ ""
        1 0).interests.lookup "keyw" ≠
      [("keyw", (1 : ℚ)/20)].lookup "keyw" := by
  with_unfolding_all decide

/-- C9 (amended): an empty-text update with decay multiplier 1 (zero elapsed
time) leaves the interests map unchanged for every profile satisfying the
data-model invariants: all weights at least `minWeight` and at most
`maxInterests` entries. -/
theorem updateInterests_idempotent_of_invariants
    (p : UserProfile) (now : ℚ)
    (hw : ∀ e ∈ p.interests, minWeight ≤ e.2)
    (hlen : p.interests.length ≤ maxInterests) :
    (UpdateInterests p "" 1 now).interests = p.interests := by
  show updateInterestsMap p.interests "" 1 = p.interests
  rw [updateInterestsMap]
  have hek : extractKeywords "" = [] := by with_unfolding_all decide
  rw [hek]
  show trimStep (decayStep 1 p.interests) = p.interests
  rw [decayStep_one hw]
  exact trimStep_of_le hlen

/-- C9 witness: the invariant-respecting idempotence at a concrete
profile. -/
theorem updateInterests_idempotent_witness :
    (UpdateInterests ⟨[("abcd", 1)], [], 5⟩ "" 1 7).interests =
      [("abcd", 1)] :=
  updateInterests_idempotent_of_invariants ⟨[("abcd", 1)], [], 5⟩ 7
    (by with_unfolding_all decide) (by with_unfolding_all decide)

/-- C10: `UpdateInterests` never touches the read-articles set: the
`ReadArticles` field after the call is the field before the call. -/
theorem updateInterests_preserves_readArticles
    (p : UserProfile) (text : String) (m now : ℚ) :
    (UpdateInterests p text m now).readArticles = p.readArticles := rfl

/-- A successful `lookup` result is an entry of the association list. -/
theorem mem_of_lookup_eq_some {l : List (String × ℚ)} {w : String} {v : ℚ}
    (h : l.lookup w = some v) : (w, v) ∈ l := by
  induction l with
  | nil => cases h
  | cons e rest ih =>
      obtain ⟨k, b⟩ := e
      rw [List.lookup] at h
      by_cases hk : w == k
      · simp only [hk] at h
        have hkw : w = k := by simpa using hk
        cases h
        rw [hkw]
        exact List.mem_cons_self _ _
      · have hkf : (w == k) = false := by simpa using hk
        simp only [hkf] at h
        exact List.mem_cons_of_mem _ (ih h)

/-- Folding a lookup-and-accumulate is adding the sum of the looked-up
weights (absent keys contributing 0). -/
theorem foldl_lookup_add_eq_sum (interests : List (String × ℚ))
    (l : List String) (a : ℚ) :
    l.foldl (fun score w =>
      match interests.lookup w with
      | some weight => score + weight
      | none => score) a =
      a + (l.map (fun w => (interests.lookup w).getD 0)).sum := by
  induction l generalizing a with
  | nil => simp
  | cons w rest ih =>
      cases h : interests.lookup w with
      | none =>
          simp only [List.foldl_cons, h]
          rw [ih]
          simp [h]
      | some v =>
          simp only [List.foldl_cons, h]
          rw [ih]
          simp only [List.map_cons, List.sum_cons, h, Option.getD_some]
          ring

/-- C4 counterexample: the two cited scoring paths disagree, so the
substring-sum rule is not the score everywhere the claim points.  Against
interests `[("data", 1)]`, the item titled `"database"` contains the
keyword as a substring — `main.go`'s `calculateInterestScore` gives 1 — but
the alternate main's scorer looks up the exact extracted token
`"database"`, finds no such key, and gives 0. -/
theorem p003Score_substring_counterexample :
    p003Score [("data", 1)] dbItem = 0 ∧
      calculateInterestScore [("data", 1)] dbItem = 1 ∧
      goContains (goToLower (dbItem.title ++ " " ++ dbItem.description))
        (goToLower "data") = true := by
  with_unfolding_all decide

/-- C4 (amended): in `main.go`'s `calculateInterestScore` the score is the
sum of the weights of exactly the interest keywords that occur,
lower-cased, as substrings of the lower-cased `Title + " " + Description`
— 0 when no keyword occurs, non-negative for maps obeying the data-model
invariant of positive weights; in the alternate main's `showRecommendations`
the score is instead the sum, over the extracted tokens of the item's text
(repeats counted repeatedly), of the weight stored under the exact token —
also non-negative under the invariant — so a keyword occurring only inside
a longer token contributes nothing there. -/
theorem calculateInterestScore_spec :
    (∀ (interests : List (String × ℚ)) (item : FeedItem),
      calculateInterestScore interests item =
        ((interests.filter (fun e =>
          goContains (goToLower (item.title ++ " " ++ item.description))
            (goToLower e.1))).map Prod.snd).sum) ∧
    (∀ (interests : List (String × ℚ)) (item : FeedItem),
      (∀ e ∈ interests,
        goContains (goToLower (item.title ++ " " ++ item.description))
          (goToLower e.1) = false) →
      calculateInterestScore interests item = 0) ∧
    (∀ (interests : List (String × ℚ)) (item : FeedItem),
      (∀ e ∈ interests, 0 < e.2) →
      0 ≤ calculateInterestScore interests item) ∧
    (∀ (interests : List (String × ℚ)) (item : FeedItem),
      p003Score interests item =
        ((extractKeywords (item.title ++ " " ++ item.description)).map
          (fun w => (interests.lookup w).getD 0)).sum) ∧
    (∀ (interests : List (String × ℚ)) (item : FeedItem),
      (∀ e ∈ interests, 0 < e.2) →
      0 ≤ p003Score interests item) := by
  have hp003 : ∀ (interests : List (String × ℚ)) (item : FeedItem),
      p003Score interests item =
        ((extractKeywords (item.title ++ " " ++ item.description)).map
          (fun w => (interests.lookup w).getD 0)).sum := by
    intro interests item
    show (extractKeywords (item.title ++ " " ++ item.description)).foldl
        (fun score w =>
          match interests.lookup w with
          | some weight => score + weight
          | none => score) (0 : ℚ) = _
    rw [foldl_lookup_add_eq_sum, zero_add]
  have hsum : ∀ (interests : List (String × ℚ)) (item : FeedItem),
      calculateInterestScore interests item =
        ((interests.filter (fun e =>
          goContains (goToLower (item.title ++ " " ++ item.description))
            (goToLower e.1))).map Prod.snd).sum := by
    intro interests item
    show interests.foldl (fun score e =>
        if goContains (goToLower (item.title ++ " " ++ item.description))
            (goToLower e.1) then score + e.2 else score) 0 = _
    rw [foldl_ite_add_eq_sum (fun e =>
        goContains (goToLower (item.title ++ " " ++ item.description))
          (goToLower e.1)) Prod.snd interests 0]
    rw [zero_add]
  refine ⟨hsum, ?_, ?_, hp003, ?_⟩
  · intro interests item hnone
    rw [hsum]
    have hnil : interests.filter (fun e =>
        goContains (goToLower (item.title ++ " " ++ item.description))
          (goToLower e.1)) = [] := by
      rw [List.filter_eq_nil_iff]
      intro e he
      simp [hnone e he]
    rw [hnil]
    rfl
  · intro interests item hpos
    rw [hsum]
    apply List.sum_nonneg
    intro x hx
    rcases List.mem_map.mp hx with ⟨e, he, rfl⟩
    exact le_of_lt (hpos e (List.mem_of_mem_filter he))
  · intro interests item hpos
    rw [hp003]
    apply List.sum_nonneg
    intro x hx
    rcases List.mem_map.mp hx with ⟨w, -, rfl⟩
    cases h : interests.lookup w with
    | none => simp [h]
    | some v =>
        simp only [Option.getD_some]
        exact le_of_lt (hpos (w, v) (mem_of_lookup_eq_some h))

/-- C4 witness: non-negativity of both scorers at concrete positive-weight
maps. -/
theorem calculateInterestScore_spec_witness :
    0 ≤ calculateInterestScore [("go", 2)] readItem ∧
      0 ≤ p003Score [("data", 1)] dbItem :=
  ⟨calculateInterestScore_spec.2.2.1 [("go", 2)] readItem
      (by with_unfolding_all decide),
    calculateInterestScore_spec.2.2.2.2 [("data", 1)] dbItem
      (by with_unfolding_all decide)⟩

/-- C7 counterexample: Go `len` counts UTF-8 bytes, not characters.  The
token `"日本"` has 2 characters but 6 bytes, so the code keeps it while the
claimed character-length filter would drop it. -/
theorem extractKeywords_charlen_counterexample :
    extractKeywords "日本" = ["日本"] ∧
      specExtractKeywordsChars "日本" = [] ∧
      ("日本" : String).data.length = 2 ∧
      ("日本" : String).utf8ByteSize = 6 := by
  with_unfolding_all decide

/-- C7 (amended): keyword extraction returns exactly the whitespace-separated
tokens of the lower-cased text whose UTF-8 BYTE length exceeds 3 and that
are not stop words, in original order with duplicates preserved (it is the
filter of the token list, hence a sublist); empty input yields the empty
sequence. -/
theorem extractKeywords_spec :
    (∀ text : String, extractKeywords text =
      (goFields (goToLower text)).filter
        (fun w => decide (3 < w.utf8ByteSize) && !isCommonWord w)) ∧
    (∀ text : String, List.Sublist (extractKeywords text) (goFields (goToLower text))) ∧
    extractKeywords "" = [] := by
  refine ⟨fun text => extractKeywordsLoop_eq_filter _, fun text => ?_,
    by with_unfolding_all decide⟩
  rw [extractKeywords, extractKeywordsLoop_eq_filter]
  exact List.filter_sublist _

/-- C2 counterexample: `main.go`'s `showRecommendations` never consults
`ReadArticles`, so an already-read article with positive score appears in a
conforming ranked output. -/
theorem recommendations_read_not_filtered_counterexample :
    sortSliceByScore
        (showRecommendationsScoredMain readFilterProfile.interests [readItem])
        [⟨readItem, 1⟩] ∧
      readFilterProfile.readArticles.contains readItem.link = true ∧
      (⟨readItem, 1⟩ : ArticleScore) ∈
        ([⟨readItem, 1⟩] : List ArticleScore) := by
  with_unfolding_all decide

/-- C2 (amended): every conforming ranked output is a permutation of
exactly the positive-scoring items — with the read-articles filter applied
in the alternate main's pipeline, and with no read filter in `main.go`'s
pipeline — and nothing is truncated. -/
theorem recommendations_exact_items :
    (∀ (interests : List (String × ℚ)) (items : List FeedItem)
        (out : List ArticleScore),
      sortSliceByScore (showRecommendationsScoredMain interests items) out →
      out.Perm (items.filterMap (fun it =>
        let s := calculateInterestScore interests it
        if 0 < s then some ⟨it, s⟩ else none))) ∧
    (∀ (p : UserProfile) (items : List FeedItem) (out : List ArticleScore),
      sortSliceByScore (showRecommendationsScored p items) out →
      out.Perm (items.filterMap (fun it =>
        if p.readArticles.contains it.link = false ∧
            0 < p003Score p.interests it then
          some ⟨it, p003Score p.interests it⟩
        else none))) := by
  constructor
  · intro interests items out hrel
    have h := hrel.1
    rwa [showRecommendationsScoredMain_eq_filterMap] at h
  · intro p items out hrel
    have h := hrel.1
    rwa [showRecommendationsScored_eq_filterMap] at h

/-- C2 witness: the exact-items theorem at a one-item instance. -/
theorem recommendations_exact_items_witness :
    ([(⟨readItem, (1 : ℚ)⟩ : ArticleScore)]).Perm
      ([readItem].filterMap (fun it =>
        let s := calculateInterestScore readFilterProfile.interests it
        if 0 < s then some ⟨it, s⟩ else none)) :=
  recommendations_exact_items.1 readFilterProfile.interests [readItem]
    [⟨readItem, 1⟩] (by with_unfolding_all decide)

/-- C3 counterexample: two items of equal score in input order `[A, B]`;
the output `[B, A]` is a conforming result of `sort.Slice` (a sorted
permutation), so the relative order of equal scores is not preserved in
every ranked output. -/
theorem recommendations_tie_order_counterexample :
    showRecommendationsScoredMain [("data", 1)] [tieItemA, tieItemB] =
        [⟨tieItemA, 1⟩, ⟨tieItemB, 1⟩] ∧
      sortSliceByScore (showRecommendationsScoredMain [("data", 1)]
        [tieItemA, tieItemB]) [⟨tieItemB, 1⟩, ⟨tieItemA, 1⟩] ∧
      ([⟨tieItemB, 1⟩, ⟨tieItemA, 1⟩] : List ArticleScore) ≠
        [⟨tieItemA, 1⟩, ⟨tieItemB, 1⟩] := by
  with_unfolding_all decide

/-- C3 (amended): every conforming ranked output is sorted in non-increasing
score order and is a permutation of the positive-scoring recommendation
list; the relative order of equal-score items is not specified. -/
theorem recommendations_sorted_desc :
    ∀ (interests : List (String × ℚ)) (items : List FeedItem)
      (out : List ArticleScore),
      sortSliceByScore (showRecommendationsScoredMain interests items) out →
      (out.Pairwise (fun a b => b.score ≤ a.score) ∧
        out.Perm (showRecommendationsScoredMain interests items) ∧
        ∀ a ∈ out, 0 < a.score) := by
  intro interests items out hrel
  refine ⟨?_, hrel.1, ?_⟩
  · exact hrel.2.imp (fun h => not_lt.mp h)
  · intro a ha
    exact pos_score_of_mem_scoredMain (hrel.1.mem_iff.mp ha)

/-- C3 witness: sortedness of a conforming output of the tie instance. -/
theorem recommendations_sorted_desc_witness :
    ([(⟨tieItemB, (1 : ℚ)⟩ : ArticleScore), ⟨tieItemA, 1⟩]).Pairwise
      (fun a b => b.score ≤ a.score) :=
  (recommendations_sorted_desc [("data", 1)] [tieItemA, tieItemB]
    [⟨tieItemB, 1⟩, ⟨tieItemA, 1⟩] (by with_unfolding_all decide)).1
